import Mathlib

/-!
# Verification of the rules search engine (`search_rules.py`)

A shallow embedding of the matching-and-ranking core of the repository:
the similarity cascade `_calculate_similarity`, the sequence matcher
`_calculate_sequence_similarity`, the public entry points `fuzzy_search`
and `search_by_keywords`, and the direct lookup `search_by_rule_number`.

Strings are modelled as `List Char`; Python floats are modelled as exact
rationals `ℚ` (every constant in the scoring policy is a short decimal,
and every comparison that the source performs is exact at these values).
Python dictionaries produced by the two entry points are modelled by the
structure `MatchResult`; the `is_direct_rule` key, which the source omits
in one of its constructors, is modelled as an `Option Bool` so that key
absence is representable.
-/

namespace RulesSearch

/-- Python whitespace predicate used by `str.strip()` / `str.split()`
(ASCII whitespace: space, tab, newline, vertical tab, form feed, carriage
return). -/
def isSpaceChar (c : Char) : Bool :=
  c = ' ' || c = '\t' || c = '\n' || c = '\x0b' || c = '\x0c' || c = '\r'

/-- Python `str.lower()`, character-wise case mapping. -/
def lowerStr (s : List Char) : List Char := s.map Char.toLower

/-- Python `str.strip()`: remove leading and trailing whitespace. -/
def stripStr (s : List Char) : List Char :=
  ((s.dropWhile isSpaceChar).reverse.dropWhile isSpaceChar).reverse

/-- Python `str.split()` with no separator: the maximal runs of
non-whitespace characters, in order; no empty words. -/
def splitWords (s : List Char) : List (List Char) :=
  (s.splitOnP isSpaceChar).filter (fun w => !w.isEmpty)

/-- Decimal digit test for a character (Python `str.isdigit`, ASCII range). -/
def isDigitChar (c : Char) : Bool := '0' ≤ c && c ≤ '9'

/-- Python `str.isdigit()`: non-empty and all characters digits. -/
def isDigitStr (s : List Char) : Bool := !s.isEmpty && s.all isDigitChar

/-- Python `int(...)` on an all-digit string. -/
def parseNat (s : List Char) : Nat :=
  s.foldl (fun n c => 10 * n + (c.toNat - 48)) 0

/-- Python substring containment `q in t` on strings. -/
def isSub (q t : List Char) : Bool := decide (q <:+: t)

/-!
## Model of `difflib.SequenceMatcher(None, a, b).ratio()`

`ratio` is `2*M/(len a + len b)` where `M` is the total size of the
matching blocks found by the recursive longest-matching-block
decomposition (`1.0` when both strings are empty).  The junk heuristic is
omitted: no `isjunk` argument is passed by the source, and the `autojunk`
popularity rule only activates on texts of 200 characters or more, far
above every concrete string evaluated in this development.

`find_longest_match` (without junk) returns the longest block
`a[i:i+k] = b[j:j+k]` inside the window, earliest in `a` and then
earliest in `b` among maximal blocks; we realise it as a fold in
lexicographic order keeping the first strict improvement.
-/

/-- Length of the common run of `a` and `b` starting at positions `i`, `j`,
staying below the bounds `ahi`, `bhi`.  Structured on explicit fuel so that
it reduces definitionally; `runLen` supplies the exact fuel `ahi - i`. -/
def runLenF : Nat → List Char → List Char → Nat → Nat → Nat → Nat → Nat
  | 0, _, _, _, _, _, _ => 0
  | fuel + 1, a, b, ahi, bhi, i, j =>
    if i < ahi ∧ j < bhi ∧ a.getD i ' ' = b.getD j ' ' then
      runLenF fuel a b ahi bhi (i + 1) (j + 1) + 1
    else 0

/-- Length of the common run of `a` and `b` at `i`, `j` below `ahi`, `bhi`. -/
def runLen (a b : List Char) (ahi bhi i j : Nat) : Nat :=
  runLenF (ahi - i) a b ahi bhi i j

/-- Keep the candidate block exactly when it is strictly longer. -/
def betterBlock (cur cand : Nat × Nat × Nat) : Nat × Nat × Nat :=
  if cur.2.2 < cand.2.2 then cand else cur

/-- `find_longest_match` on the window `[alo,ahi) × [blo,bhi)` (no junk):
the longest matching block, earliest in `a` then in `b`; `(alo, blo, 0)`
when there is none. -/
def findBestBlock (a b : List Char) (alo ahi blo bhi : Nat) : Nat × Nat × Nat :=
  (List.range' alo (ahi - alo)).foldl
    (fun best i =>
      (List.range' blo (bhi - blo)).foldl
        (fun best j => betterBlock best (i, j, runLen a b ahi bhi i j)) best)
    (alo, blo, 0)

/-- Total size of the matching blocks of `get_matching_blocks` on the
window: recursively split at the longest matching block.  Fuel-structured;
the measure `(ahi-alo)+(bhi-blo)` shrinks at every split, so the fuel
`len a + len b` supplied by `matchTotal` is sufficient. -/
def matchTotalF : Nat → List Char → List Char → Nat → Nat → Nat → Nat → Nat
  | 0, _, _, _, _, _, _ => 0
  | fuel + 1, a, b, alo, ahi, blo, bhi =>
    let best := findBestBlock a b alo ahi blo bhi
    if best.2.2 = 0 then 0
    else
      matchTotalF fuel a b alo best.1 blo best.2.1 + best.2.2 +
        matchTotalF fuel a b (best.1 + best.2.2) ahi (best.2.1 + best.2.2) bhi

/-- Total matched size `M` for the whole strings. -/
def matchTotal (a b : List Char) : Nat :=
  matchTotalF (a.length + b.length) a b 0 a.length 0 b.length

/-- `difflib.SequenceMatcher(None, a, b).ratio()`: `2*M/T` with
`T = len a + len b`, and `1.0` when `T = 0`. -/
def ratioScore (a b : List Char) : ℚ :=
  if a.length + b.length = 0 then 1
  else 2 * (matchTotal a b : ℚ) / ((a.length : ℚ) + (b.length : ℚ))

/-!
## `_calculate_sequence_similarity`
-/

/-- The inner `for k in range(window_start, window_end)` search: first
index `k` in `[ws, we)` with `text_words[k] == query_word`. -/
def findInWindow (text_words : List (List Char)) (w : List Char) (ws we : Nat) : Option Nat :=
  (List.range' ws (we - ws)).find? (fun k => text_words.getD k [] = w)

/-- The inner `for j, query_word in enumerate(query_words)` loop of
`_calculate_sequence_similarity`, from state `(last_pos, matches, gaps)`;
returns the final `(matches, gaps)`.  `window_start = max(0, last_pos-2)`
and the gap increment `max(0, k - last_pos - 1)` are truncated
subtraction on `Nat`; a word not found breaks out of the loop. -/
def seqScanLoop (text_words : List (List Char)) :
    List (List Char) → Nat → Nat → Nat → Nat × Nat
  | [], _, mcount, gaps => (mcount, gaps)
  | qw :: rest, last_pos, mcount, gaps =>
    match findInWindow text_words qw (last_pos - 2) (min text_words.length (last_pos + 3)) with
    | some k => seqScanLoop text_words rest (k + 1) (mcount + 1) (gaps + (k - (last_pos + 1)))
    | none => (mcount, gaps)

/-- `score = 0.9 - min(0.3, gaps * 0.1)` computed on a completed start
position. -/
def gapScore (gaps : Nat) : ℚ := 0.9 - min 0.3 ((gaps : ℚ) * 0.1)

/-- `_calculate_sequence_similarity(query_words, text_words)`: best score
over the start positions `range(len(text_words) - len(query_words) + 1)`
(the count is computed with truncated subtraction, matching Python's
empty range for a negative bound); `0.0` for fewer than two query words. -/
def calculate_sequence_similarity (query_words text_words : List (List Char)) : ℚ :=
  if query_words.length < 2 then 0
  else
    (List.range (text_words.length + 1 - query_words.length)).foldl
      (fun best i =>
        let mg := seqScanLoop text_words query_words i 0 0
        if mg.1 = query_words.length then max best (gapScore mg.2) else best)
      0

/-!
## `_calculate_similarity`
-/

/-- `_calculate_similarity(query, text)`: the scoring cascade.  `query`
and `text` are already lower-cased by every caller.  The branches, in
source order: exact substring (`1.0`); multi-word ordered sequence when
`> 0.8`; all words present (`0.7`), most words present
(`0.5 + (m/n)*0.2` when `m > n*0.7`); single-word substring (`0.6`);
otherwise the weighted composite of the `SequenceMatcher` ratio, the word
Jaccard overlap on the word sets, and the partial-word bonus (`0.3` when
some query word and some text word contain one another). -/
def calculate_similarity (query text : List Char) : ℚ :=
  if isSub query text then 1
  else
    let query_words := splitWords query
    let sequence_score := calculate_sequence_similarity query_words (splitWords text)
    if 1 < query_words.length ∧ (0.8 : ℚ) < sequence_score then sequence_score
    else
      let word_matches := (query_words.filter (fun w => isSub w text)).length
      if 1 < query_words.length ∧ word_matches = query_words.length then 0.7
      else if 1 < query_words.length ∧ (query_words.length : ℚ) * 0.7 < (word_matches : ℚ) then
        0.5 + ((word_matches : ℚ) / (query_words.length : ℚ)) * 0.2
      else if query_words.length = 1 ∧ isSub (query_words.getD 0 []) text then 0.6
      else
        let seq_score := ratioScore query text
        let text_word_set := (splitWords text).dedup
        if query_words = [] then seq_score
        else
          let inter := query_words.toFinset ∩ (splitWords text).toFinset
          let unionW := query_words.toFinset ∪ (splitWords text).toFinset
          let word_score : ℚ := if unionW.Nonempty then (inter.card : ℚ) / (unionW.card : ℚ) else 0
          let partialScore : ℚ :=
            if query_words.any (fun qw => text_word_set.any (fun tw => isSub qw tw || isSub tw qw))
            then 0.3 else 0
          seq_score * 0.15 + word_score * 0.25 + partialScore * 0.25

/-!
## Data model and entry points
-/

/-- The values of the `matched_language` key of a result dictionary. -/
inductive MatchedLanguage where
  | english
  | russian
  | both
  | directRuleNumber
deriving DecidableEq

/-- One corpus record (`rules.json` entry). -/
structure Rule where
  rule_number : Nat
  text_eng : List Char
  text_rus : List Char
deriving DecidableEq

/-- One result dictionary.  `is_direct_rule` is `Option Bool` because the
source builds result dictionaries both with and without that key. -/
structure MatchResult where
  rule_number : Nat
  text_eng : List Char
  text_rus : List Char
  similarity_score : ℚ
  matched_language : MatchedLanguage
  is_direct_rule : Option Bool
deriving DecidableEq

/-- `search_by_rule_number`: first rule with the given number, if any. -/
def search_by_rule_number (rules : List Rule) (n : Nat) : Option Rule :=
  rules.find? (fun r => r.rule_number = n)

/-- The loop body of `fuzzy_search`: for each rule in corpus order, score
both language fields on the lower-cased stripped query, keep the maximum,
and keep the rule when it reaches the threshold.  `matched_language` is
`English` exactly when `eng_score > rus_score` (strict). -/
def fuzzyCandidates (rules : List Rule) (query_lower : List Char) (threshold : ℚ) :
    List MatchResult :=
  rules.filterMap (fun rule =>
    let eng_score := calculate_similarity query_lower (lowerStr rule.text_eng)
    let rus_score := calculate_similarity query_lower (lowerStr rule.text_rus)
    let best_score := max eng_score rus_score
    if threshold ≤ best_score then
      some { rule_number := rule.rule_number
             text_eng := rule.text_eng
             text_rus := rule.text_rus
             similarity_score := best_score
             matched_language := if rus_score < eng_score then .english else .russian
             is_direct_rule := some false }
    else none)

/-- The descending-score ordering used by `results.sort(key=..., reverse=True)`. -/
def scoreDescRel (x y : MatchResult) : Prop := y.similarity_score ≤ x.similarity_score

instance : DecidableRel scoreDescRel := fun x y =>
  inferInstanceAs (Decidable (y.similarity_score ≤ x.similarity_score))

instance : IsTotal MatchResult scoreDescRel :=
  ⟨fun a b => le_total b.similarity_score a.similarity_score⟩

instance : IsTrans MatchResult scoreDescRel :=
  ⟨fun _ _ _ h₁ h₂ => le_trans h₂ h₁⟩

/-- Python's `list.sort(key=lambda x: x['similarity_score'], reverse=True)`
is a stable descending sort; modelled by stable insertion sort under
`scoreDescRel`. -/
def sortByScoreDesc (results : List MatchResult) : List MatchResult :=
  results.insertionSort scoreDescRel

/-- `fuzzy_search(query, threshold, max_results)`: empty for a blank
query; the direct numeric path for an all-digit query (score `1.0`,
`Direct Rule Number`, `is_direct_rule = True`, or no result at all);
otherwise score every rule, filter by threshold, sort by score descending
(stable) and truncate to `max_results`. -/
def fuzzy_search (rules : List Rule) (query : List Char) (threshold : ℚ)
    (max_results : Nat) : List MatchResult :=
  if stripStr query = [] then []
  else if isDigitStr (stripStr query) then
    match search_by_rule_number rules (parseNat (stripStr query)) with
    | some rule =>
        [{ rule_number := rule.rule_number
           text_eng := rule.text_eng
           text_rus := rule.text_rus
           similarity_score := 1
           matched_language := .directRuleNumber
           is_direct_rule := some true }]
    | none => []
  else
    (sortByScoreDesc (fuzzyCandidates rules (stripStr (lowerStr query)) threshold)).take max_results

/-- Per-keyword score inside `search_by_keywords`: best of the two
language fields under the cascade. -/
def keywordScore (keyword_lower eng_lower rus_lower : List Char) : ℚ :=
  max (calculate_similarity keyword_lower eng_lower)
    (calculate_similarity keyword_lower rus_lower)

/-- The loop body of `search_by_keywords`: a rule qualifies when every
lower-cased keyword is a substring of the lower-cased English text or of
the lower-cased Russian text; its score is the mean of the per-keyword
scores; rules below the threshold are dropped.  The result dictionary has
`matched_language = Both` and no `is_direct_rule` key. -/
def keywordCandidates (rules : List Rule) (keywords : List (List Char)) (threshold : ℚ) :
    List MatchResult :=
  rules.filterMap (fun rule =>
    let eng_text := lowerStr rule.text_eng
    let rus_text := lowerStr rule.text_rus
    if keywords.all (fun kw => isSub (lowerStr kw) eng_text || isSub (lowerStr kw) rus_text) then
      let total_score := (keywords.map (fun kw => keywordScore (lowerStr kw) eng_text rus_text)).sum
      let avg_score := total_score / (keywords.length : ℚ)
      if threshold ≤ avg_score then
        some { rule_number := rule.rule_number
               text_eng := rule.text_eng
               text_rus := rule.text_rus
               similarity_score := avg_score
               matched_language := .both
               is_direct_rule := none }
      else none
    else none)

/-- `search_by_keywords(keywords, threshold)`: empty for an empty keyword
list; otherwise the qualifying rules sorted by score descending, with no
result cap. -/
def search_by_keywords (rules : List Rule) (keywords : List (List Char)) (threshold : ℚ) :
    List MatchResult :=
  if keywords = [] then []
  else sortByScoreDesc (keywordCandidates rules keywords threshold)

/-!
## Bounds for the ratio model
-/

theorem runLenF_le_left (fuel : Nat) : ∀ (a b : List Char) (ahi bhi i j : Nat),
    runLenF fuel a b ahi bhi i j ≤ ahi - i := by
  induction fuel with
  | zero => intro a b ahi bhi i j; simp [runLenF]
  | succ n ih =>
    intro a b ahi bhi i j
    simp only [runLenF]
    split
    · rename_i h
      have := ih a b ahi bhi (i + 1) (j + 1)
      omega
    · omega

theorem runLenF_le_right (fuel : Nat) : ∀ (a b : List Char) (ahi bhi i j : Nat),
    runLenF fuel a b ahi bhi i j ≤ bhi - j := by
  induction fuel with
  | zero => intro a b ahi bhi i j; simp [runLenF]
  | succ n ih =>
    intro a b ahi bhi i j
    simp only [runLenF]
    split
    · rename_i h
      have := ih a b ahi bhi (i + 1) (j + 1)
      omega
    · omega

/-- The invariant maintained by the `findBestBlock` fold: the held block
is the trivial empty block or lies inside the window. -/
def blockOK (alo ahi blo bhi : Nat) (t : Nat × Nat × Nat) : Prop :=
  t.2.2 = 0 ∨ (alo ≤ t.1 ∧ blo ≤ t.2.1 ∧ t.1 + t.2.2 ≤ ahi ∧ t.2.1 + t.2.2 ≤ bhi)

theorem findBestBlock_ok (a b : List Char) (alo ahi blo bhi : Nat) :
    blockOK alo ahi blo bhi (findBestBlock a b alo ahi blo bhi) := by
  unfold findBestBlock
  apply List.foldlRecOn
  · exact Or.inl rfl
  · intro best hbest i hi
    apply List.foldlRecOn
    · exact hbest
    · intro cur hcur j hj
      have hi' : alo ≤ i ∧ i < alo + (ahi - alo) := List.mem_range'_1.mp hi
      have hj' : blo ≤ j ∧ j < blo + (bhi - blo) := List.mem_range'_1.mp hj
      have hr1 : runLen a b ahi bhi i j ≤ ahi - i := runLenF_le_left _ a b ahi bhi i j
      have hr2 : runLen a b ahi bhi i j ≤ bhi - j := runLenF_le_right _ a b ahi bhi i j
      unfold betterBlock
      split
      · right
        refine ⟨?_, ?_, ?_, ?_⟩ <;> dsimp only <;> omega
      · exact hcur

theorem matchTotalF_le_left (fuel : Nat) : ∀ (a b : List Char) (alo ahi blo bhi : Nat),
    matchTotalF fuel a b alo ahi blo bhi ≤ ahi - alo := by
  induction fuel with
  | zero => intro a b alo ahi blo bhi; simp [matchTotalF]
  | succ n ih =>
    intro a b alo ahi blo bhi
    have hb := findBestBlock_ok a b alo ahi blo bhi
    simp only [matchTotalF]
    split
    · omega
    · rename_i hk
      rcases hb with hb | hb
      · exact absurd hb hk
      · have h1 := ih a b alo (findBestBlock a b alo ahi blo bhi).1 blo
          (findBestBlock a b alo ahi blo bhi).2.1
        have h2 := ih a b ((findBestBlock a b alo ahi blo bhi).1 +
          (findBestBlock a b alo ahi blo bhi).2.2) ahi
          ((findBestBlock a b alo ahi blo bhi).2.1 +
            (findBestBlock a b alo ahi blo bhi).2.2) bhi
        omega

theorem matchTotalF_le_right (fuel : Nat) : ∀ (a b : List Char) (alo ahi blo bhi : Nat),
    matchTotalF fuel a b alo ahi blo bhi ≤ bhi - blo := by
  induction fuel with
  | zero => intro a b alo ahi blo bhi; simp [matchTotalF]
  | succ n ih =>
    intro a b alo ahi blo bhi
    have hb := findBestBlock_ok a b alo ahi blo bhi
    simp only [matchTotalF]
    split
    · omega
    · rename_i hk
      rcases hb with hb | hb
      · exact absurd hb hk
      · have h1 := ih a b alo (findBestBlock a b alo ahi blo bhi).1 blo
          (findBestBlock a b alo ahi blo bhi).2.1
        have h2 := ih a b ((findBestBlock a b alo ahi blo bhi).1 +
          (findBestBlock a b alo ahi blo bhi).2.2) ahi
          ((findBestBlock a b alo ahi blo bhi).2.1 +
            (findBestBlock a b alo ahi blo bhi).2.2) bhi
        omega

theorem matchTotal_le (a b : List Char) :
    matchTotal a b ≤ a.length ∧ matchTotal a b ≤ b.length := by
  constructor
  · have := matchTotalF_le_left (a.length + b.length) a b 0 a.length 0 b.length
    simpa using this
  · have := matchTotalF_le_right (a.length + b.length) a b 0 a.length 0 b.length
    simpa using this

theorem ratioScore_nonneg (a b : List Char) : 0 ≤ ratioScore a b := by
  unfold ratioScore
  split
  · norm_num
  · positivity

theorem ratioScore_le_one (a b : List Char) : ratioScore a b ≤ 1 := by
  unfold ratioScore
  split
  · norm_num
  · rename_i h
    have hpos : (0 : ℚ) < (a.length : ℚ) + (b.length : ℚ) := by
      have : 0 < a.length + b.length := Nat.pos_of_ne_zero h
      exact_mod_cast this
    rw [div_le_one hpos]
    have hm := matchTotal_le a b
    have : 2 * matchTotal a b ≤ a.length + b.length := by omega
    exact_mod_cast this

/-!
## Bounds for the sequence matcher and the cascade
-/

theorem gapScore_le (gaps : Nat) : gapScore gaps ≤ 0.9 := by
  unfold gapScore
  have h : (0 : ℚ) ≤ min 0.3 ((gaps : ℚ) * 0.1) :=
    le_min (by norm_num) (by positivity)
  linarith

theorem gapScore_ge (gaps : Nat) : 0.6 ≤ gapScore gaps := by
  unfold gapScore
  have h : min 0.3 ((gaps : ℚ) * 0.1) ≤ 0.3 := min_le_left _ _
  linarith

theorem seqFold_bounds (tw qw : List (List Char)) :
    ∀ (l : List Nat) (best : ℚ), 0 ≤ best → best ≤ 0.9 →
      0 ≤ l.foldl (fun best i =>
          let mg := seqScanLoop tw qw i 0 0
          if mg.1 = qw.length then max best (gapScore mg.2) else best) best ∧
      l.foldl (fun best i =>
          let mg := seqScanLoop tw qw i 0 0
          if mg.1 = qw.length then max best (gapScore mg.2) else best) best ≤ 0.9 := by
  intro l
  induction l with
  | nil => intro best h0 h1; exact ⟨h0, h1⟩
  | cons i rest ih =>
    intro best h0 h1
    simp only [List.foldl_cons]
    split
    · exact ih _ (le_trans h0 (le_max_left _ _)) (max_le h1 (gapScore_le _))
    · exact ih _ h0 h1

theorem calculate_sequence_similarity_nonneg (qw tw : List (List Char)) :
    0 ≤ calculate_sequence_similarity qw tw := by
  unfold calculate_sequence_similarity
  split
  · norm_num
  · exact (seqFold_bounds tw qw _ 0 le_rfl (by norm_num)).1

theorem calculate_sequence_similarity_le (qw tw : List (List Char)) :
    calculate_sequence_similarity qw tw ≤ 0.9 := by
  unfold calculate_sequence_similarity
  split
  · norm_num
  · exact (seqFold_bounds tw qw _ 0 le_rfl (by norm_num)).2

/-- The `word_jaccard` sub-score as the spec states it (§4.2, branch 5):
intersection over union of the word sets, `0` when the union is empty. -/
def word_jaccard (query text : List Char) : ℚ :=
  if ((splitWords query).toFinset ∪ (splitWords text).toFinset).Nonempty then
    (((splitWords query).toFinset ∩ (splitWords text).toFinset).card : ℚ) /
      (((splitWords query).toFinset ∪ (splitWords text).toFinset).card : ℚ)
  else 0

/-- The `partial_substring` sub-score as the spec states it (§4.2, branch
5): `0.3` when some query word and some text word contain one another,
else `0.0`. -/
def partial_substring (query text : List Char) : ℚ :=
  if ∃ qw ∈ splitWords query, ∃ tw ∈ splitWords text, isSub qw tw ∨ isSub tw qw then 0.3
  else 0

/-- The fallback composite of §4.2 branch 5, as the spec's formula
`edit_ratio × 0.15 + word_jaccard × 0.25 + partial_substring × 0.25`. -/
def fallback_composite (query text : List Char) : ℚ :=
  ratioScore query text * 0.15 + word_jaccard query text * 0.25 +
    partial_substring query text * 0.25

theorem word_jaccard_nonneg (query text : List Char) : 0 ≤ word_jaccard query text := by
  unfold word_jaccard
  split
  · positivity
  · exact le_refl 0

theorem word_jaccard_le_one (query text : List Char) : word_jaccard query text ≤ 1 := by
  unfold word_jaccard
  split
  · rename_i h
    have hpos : 0 < ((splitWords query).toFinset ∪ (splitWords text).toFinset).card :=
      Finset.card_pos.mpr h
    rw [div_le_one (by exact_mod_cast hpos)]
    exact_mod_cast Finset.card_le_card Finset.inter_subset_union
  · norm_num

theorem partial_substring_nonneg (query text : List Char) :
    0 ≤ partial_substring query text := by
  unfold partial_substring
  split <;> norm_num

theorem partial_substring_le (query text : List Char) :
    partial_substring query text ≤ 0.3 := by
  unfold partial_substring
  split <;> norm_num

theorem fallback_composite_nonneg (query text : List Char) :
    0 ≤ fallback_composite query text := by
  unfold fallback_composite
  have h1 := ratioScore_nonneg query text
  have h2 := word_jaccard_nonneg query text
  have h3 := partial_substring_nonneg query text
  linarith

theorem fallback_composite_le (query text : List Char) :
    fallback_composite query text ≤ 0.475 := by
  unfold fallback_composite
  have h1 := ratioScore_le_one query text
  have h2 := word_jaccard_le_one query text
  have h3 := partial_substring_le query text
  have h4 := ratioScore_nonneg query text
  have h5 := word_jaccard_nonneg query text
  have h6 := partial_substring_nonneg query text
  linarith

theorem calculate_similarity_bounds (query text : List Char) :
    0 ≤ calculate_similarity query text ∧ calculate_similarity query text ≤ 1 := by
  unfold calculate_similarity
  dsimp only
  split_ifs with h1 h2 h3 h4 h5 h6 h7 h8 h8
  · norm_num
  · refine ⟨calculate_sequence_similarity_nonneg _ _, ?_⟩
    exact le_trans (calculate_sequence_similarity_le _ _) (by norm_num)
  · norm_num
  · obtain ⟨hn, hm⟩ := h4
    have hmn : (List.filter (fun w => isSub w text) (splitWords query)).length ≤
        (splitWords query).length := List.length_filter_le _ _
    have hn0 : (0 : ℚ) < ((splitWords query).length : ℚ) := by
      exact_mod_cast Nat.lt_of_lt_of_le Nat.zero_lt_one (le_of_lt hn)
    have hdiv0 : (0 : ℚ) ≤ ((List.filter (fun w => isSub w text) (splitWords query)).length : ℚ) /
        ((splitWords query).length : ℚ) := by positivity
    have hdiv1 : ((List.filter (fun w => isSub w text) (splitWords query)).length : ℚ) /
        ((splitWords query).length : ℚ) ≤ 1 := by
      rw [div_le_one hn0]; exact_mod_cast hmn
    constructor <;> linarith
  · norm_num
  · exact ⟨ratioScore_nonneg _ _, ratioScore_le_one _ _⟩
  all_goals have hr0 := ratioScore_nonneg query text
  all_goals have hr1 := ratioScore_le_one query text
  · have hcu : (0 : ℚ) < (((splitWords query).toFinset ∪ (splitWords text).toFinset).card : ℚ) := by
      exact_mod_cast Finset.card_pos.mpr h7
    have hj0 : (0 : ℚ) ≤ (((splitWords query).toFinset ∩ (splitWords text).toFinset).card : ℚ) /
        (((splitWords query).toFinset ∪ (splitWords text).toFinset).card : ℚ) := by positivity
    have hj1 : (((splitWords query).toFinset ∩ (splitWords text).toFinset).card : ℚ) /
        (((splitWords query).toFinset ∪ (splitWords text).toFinset).card : ℚ) ≤ 1 := by
      rw [div_le_one hcu]
      exact_mod_cast Finset.card_le_card Finset.inter_subset_union
    constructor <;> linarith
  · have hcu : (0 : ℚ) < (((splitWords query).toFinset ∪ (splitWords text).toFinset).card : ℚ) := by
      exact_mod_cast Finset.card_pos.mpr h7
    have hj0 : (0 : ℚ) ≤ (((splitWords query).toFinset ∩ (splitWords text).toFinset).card : ℚ) /
        (((splitWords query).toFinset ∪ (splitWords text).toFinset).card : ℚ) := by positivity
    have hj1 : (((splitWords query).toFinset ∩ (splitWords text).toFinset).card : ℚ) /
        (((splitWords query).toFinset ∪ (splitWords text).toFinset).card : ℚ) ≤ 1 := by
      rw [div_le_one hcu]
      exact_mod_cast Finset.card_le_card Finset.inter_subset_union
    constructor <;> linarith
  · constructor <;> linarith
  · constructor <;> linarith

/-- On the path where none of the first five cascade branches fires and
the query has at least one word, `_calculate_similarity` returns exactly
the spec's fallback composite. -/
theorem calculate_similarity_fallback (query text : List Char)
    (h1 : isSub query text = false)
    (h2 : ¬(1 < (splitWords query).length ∧
      (0.8 : ℚ) < calculate_sequence_similarity (splitWords query) (splitWords text)))
    (h3 : ¬(1 < (splitWords query).length ∧
      (List.filter (fun w => isSub w text) (splitWords query)).length = (splitWords query).length))
    (h4 : ¬(1 < (splitWords query).length ∧
      ((splitWords query).length : ℚ) * 0.7 <
        ((List.filter (fun w => isSub w text) (splitWords query)).length : ℚ)))
    (h5 : ¬((splitWords query).length = 1 ∧ isSub ((splitWords query).getD 0 []) text = true))
    (h6 : splitWords query ≠ []) :
    calculate_similarity query text = fallback_composite query text := by
  unfold calculate_similarity
  dsimp only
  rw [if_neg (by simp [h1]), if_neg h2, if_neg h3, if_neg h4, if_neg h5, if_neg h6]
  unfold fallback_composite word_jaccard partial_substring
  simp only [List.any_eq_true, List.mem_dedup, Bool.or_eq_true]

/-- The first cascade branch: an exact substring scores `1.0`. -/
theorem calculate_similarity_of_isSub (query text : List Char)
    (h : isSub query text = true) : calculate_similarity query text = 1 := by
  unfold calculate_similarity
  rw [if_pos h]

/-!
## Membership characterizations for the entry points
-/

/-- Everything `fuzzy_search`'s non-numeric loop emits comes from a corpus
rule, scored as the maximum of the two language fields, at or above the
threshold, with `is_direct_rule = some false`. -/
theorem mem_fuzzyCandidates_spec (rules : List Rule) (q : List Char) (th : ℚ)
    (r : MatchResult) (h : r ∈ fuzzyCandidates rules q th) :
    ∃ rule ∈ rules,
      th ≤ max (calculate_similarity q (lowerStr rule.text_eng))
          (calculate_similarity q (lowerStr rule.text_rus)) ∧
      r = { rule_number := rule.rule_number
            text_eng := rule.text_eng
            text_rus := rule.text_rus
            similarity_score := max (calculate_similarity q (lowerStr rule.text_eng))
              (calculate_similarity q (lowerStr rule.text_rus))
            matched_language :=
              if calculate_similarity q (lowerStr rule.text_rus) <
                  calculate_similarity q (lowerStr rule.text_eng) then .english else .russian
            is_direct_rule := some false } := by
  unfold fuzzyCandidates at h
  obtain ⟨rule, hrule, heq⟩ := List.mem_filterMap.mp h
  dsimp only at heq
  refine ⟨rule, hrule, ?_⟩
  split at heq
  · rename_i hth
    exact ⟨hth, (Option.some_inj.mp heq).symm⟩
  · exact absurd heq (by simp)

/-- Every result of `fuzzy_search` is either the direct numeric result or
an element of the scored candidate list. -/
theorem mem_fuzzy_search_cases (rules : List Rule) (query : List Char) (threshold : ℚ)
    (max_results : Nat) (r : MatchResult)
    (h : r ∈ fuzzy_search rules query threshold max_results) :
    (r.similarity_score = 1 ∧ r.is_direct_rule = some true ∧
      r.matched_language = .directRuleNumber) ∨
    r ∈ fuzzyCandidates rules (stripStr (lowerStr query)) threshold := by
  unfold fuzzy_search at h
  split_ifs at h with hempty hdigit
  · exact absurd h (List.not_mem_nil r)
  · revert h
    split
    · intro h
      rw [List.mem_singleton.mp h]
      exact Or.inl ⟨rfl, rfl, rfl⟩
    · intro h
      exact absurd h (List.not_mem_nil r)
  · right
    have h1 : r ∈ sortByScoreDesc (fuzzyCandidates rules (stripStr (lowerStr query)) threshold) :=
      List.mem_of_mem_take h
    exact (List.mem_insertionSort scoreDescRel).mp h1

/-!
## Concrete fixtures for witnesses
-/

/-- Concrete one-rule corpus used by witnesses. -/
def bikeRule : Rule :=
  { rule_number := 1, text_eng := ("bike".toList), text_rus := ("bike".toList) }

/-- The result that `fuzzy_search` produces for the query `"bike"` on
`[bikeRule]` (a tie of the two language scores resolves to Russian). -/
def bikeResult : MatchResult :=
  { rule_number := 1, text_eng := ("bike".toList), text_rus := ("bike".toList)
    similarity_score := 1, matched_language := .russian, is_direct_rule := some false }

theorem fuzzy_search_bike_eval :
    fuzzy_search [bikeRule] ("bike".toList) 0.5 1 = [bikeResult] := by
  unfold fuzzy_search
  rw [if_neg (by decide), if_neg (by decide)]
  have hq : stripStr (lowerStr ("bike".toList)) = "bike".toList := by decide
  rw [hq]
  unfold fuzzyCandidates
  simp only [List.filterMap_cons, List.filterMap_nil]
  rw [calculate_similarity_of_isSub _ _ (by decide)]
  rw [calculate_similarity_of_isSub _ _ (by decide)]
  rw [max_self]
  rw [if_pos (by norm_num : (0.5 : ℚ) ≤ 1), if_neg (lt_irrefl (1 : ℚ))]
  rfl

/-!
## The claims
-/

/-- C1: for every query string and every rule text, the cascade score
`_calculate_similarity` lies in the closed interval `[0,1]`, and every
`MatchResult` returned by `fuzzy_search` carries a `similarity_score` in
`[0,1]`. -/
theorem C1_scores_lie_in_unit_interval :
    (∀ query text : List Char,
      0 ≤ calculate_similarity query text ∧ calculate_similarity query text ≤ 1) ∧
    (∀ (rules : List Rule) (query : List Char) (threshold : ℚ) (max_results : Nat)
      (r : MatchResult), r ∈ fuzzy_search rules query threshold max_results →
      0 ≤ r.similarity_score ∧ r.similarity_score ≤ 1) := by
  refine ⟨calculate_similarity_bounds, ?_⟩
  intro rules query threshold max_results r hr
  rcases mem_fuzzy_search_cases rules query threshold max_results r hr with h | h
  · rw [h.1]
    norm_num
  · obtain ⟨rule, -, -, heq⟩ := mem_fuzzyCandidates_spec _ _ _ _ h
    rw [heq]
    refine ⟨?_, ?_⟩
    · exact le_trans (calculate_similarity_bounds _ _).1 (le_max_left _ _)
    · exact max_le (calculate_similarity_bounds _ _).2 (calculate_similarity_bounds _ _).2

theorem C1_witness : 0 ≤ bikeResult.similarity_score ∧ bikeResult.similarity_score ≤ 1 :=
  C1_scores_lie_in_unit_interval.2 [bikeRule] ("bike".toList) 0.5 1 bikeResult
    (by rw [fuzzy_search_bike_eval]; exact List.mem_singleton_self _)

/-- The condition for reaching the fallback composite branch of the
cascade: none of the five earlier branch guards fires and the query has
at least one word. -/
def inFallbackBranch (query text : List Char) : Prop :=
  isSub query text = false ∧
  ¬(1 < (splitWords query).length ∧
    (0.8 : ℚ) < calculate_sequence_similarity (splitWords query) (splitWords text)) ∧
  ¬(1 < (splitWords query).length ∧
    (List.filter (fun w => isSub w text) (splitWords query)).length = (splitWords query).length) ∧
  ¬(1 < (splitWords query).length ∧
    ((splitWords query).length : ℚ) * 0.7 <
      ((List.filter (fun w => isSub w text) (splitWords query)).length : ℚ)) ∧
  ¬((splitWords query).length = 1 ∧ isSub ((splitWords query).getD 0 []) text = true) ∧
  splitWords query ≠ []

/-- C2 (amended): in the fallback composite branch the result equals
`edit_ratio × 0.15 + word_jaccard × 0.25 + partial_substring × 0.25`
with `partial_substring ∈ {0, 0.3}` from a single containment hit, and
the value of this branch never exceeds `0.475` (in particular `0.65` is
not attainable). -/
theorem C2_fallback_composite_formula_and_bound :
    (∀ query text : List Char, inFallbackBranch query text →
      calculate_similarity query text = fallback_composite query text) ∧
    (∀ query text : List Char, fallback_composite query text ≤ 0.475) := by
  refine ⟨?_, fallback_composite_le⟩
  intro query text h
  exact calculate_similarity_fallback query text h.1 h.2.1 h.2.2.1 h.2.2.2.1
    h.2.2.2.2.1 h.2.2.2.2.2

theorem C2_witness :
    calculate_similarity ("xy".toList) ("ab".toList) =
      fallback_composite ("xy".toList) ("ab".toList) ∧
    fallback_composite ("xy".toList) ("ab".toList) ≤ 0.475 :=
  ⟨C2_fallback_composite_formula_and_bound.1 ("xy".toList) ("ab".toList)
    ⟨by decide, fun h => absurd h.1 (by decide), fun h => absurd h.1 (by decide),
     fun h => absurd h.1 (by decide), by decide, by decide⟩,
   C2_fallback_composite_formula_and_bound.2 ("xy".toList) ("ab".toList)⟩

/-- C2 counterexample: contrary to the claim's "maximum attainable via
this branch is 0.65", no input in the fallback branch reaches `0.65`:
the branch value is bounded by `0.475`. -/
theorem C2_counterexample_no_fallback_attains_065 :
    ¬ ∃ query text : List Char, inFallbackBranch query text ∧
      (0.65 : ℚ) ≤ calculate_similarity query text := by
  rintro ⟨q, t, hf, hle⟩
  have h1 := calculate_similarity_fallback q t hf.1 hf.2.1 hf.2.2.1 hf.2.2.2.1
    hf.2.2.2.2.1 hf.2.2.2.2.2
  have h2 := fallback_composite_le q t
  rw [h1] at hle
  linarith

/-- C3: for a purely numeric query (after trimming), any threshold and
any result cap: when a rule with the parsed number exists, `fuzzy_search`
returns exactly one result with score `1.0`, `is_direct_rule = True` and
`matched_language = Direct Rule Number`; when no rule has the number, it
returns the empty list. -/
theorem C3_numeric_query_direct_path (rules : List Rule) (query : List Char)
    (threshold : ℚ) (max_results : Nat)
    (hd : isDigitStr (stripStr query) = true) :
    ((∃ rule ∈ rules, rule.rule_number = parseNat (stripStr query)) →
      ∃ r, fuzzy_search rules query threshold max_results = [r] ∧
        r.similarity_score = 1 ∧ r.is_direct_rule = some true ∧
        r.matched_language = .directRuleNumber) ∧
    ((∀ rule ∈ rules, rule.rule_number ≠ parseNat (stripStr query)) →
      fuzzy_search rules query threshold max_results = []) := by
  have hne : ¬(stripStr query = []) := by
    intro h
    rw [h] at hd
    exact absurd hd (by decide)
  constructor
  · rintro ⟨rule, hmem, hnum⟩
    unfold fuzzy_search
    rw [if_neg hne, if_pos hd]
    have hsome : (search_by_rule_number rules (parseNat (stripStr query))).isSome := by
      unfold search_by_rule_number
      rw [List.find?_isSome]
      exact ⟨rule, hmem, by simp [hnum]⟩
    obtain ⟨rule', hr'⟩ := Option.isSome_iff_exists.mp hsome
    rw [hr']
    exact ⟨_, rfl, rfl, rfl, rfl⟩
  · intro hall
    unfold fuzzy_search
    rw [if_neg hne, if_pos hd]
    have hnone : search_by_rule_number rules (parseNat (stripStr query)) = none := by
      unfold search_by_rule_number
      rw [List.find?_eq_none]
      intro x hx
      simp [hall x hx]
    rw [hnone]

/-- Concrete rule number 5, used by the C3 witness. -/
def ruleFive : Rule :=
  { rule_number := 5, text_eng := ("a".toList), text_rus := ("b".toList) }

theorem C3_witness :
    ∃ r, fuzzy_search [ruleFive] ("5".toList) 1.1 10 = [r] ∧
      r.similarity_score = 1 ∧ r.is_direct_rule = some true ∧
      r.matched_language = .directRuleNumber :=
  (C3_numeric_query_direct_path [ruleFive] ("5".toList) 1.1 10 (by decide)).1
    ⟨ruleFive, List.mem_singleton_self _, by decide⟩

/-- C9: a blank (empty or whitespace-only) query makes `fuzzy_search`
return the empty list, and an empty keyword list makes
`search_by_keywords` return the empty list; both return a value, never a
fault. -/
theorem C9_blank_inputs_give_empty (rules : List Rule) (query : List Char)
    (threshold : ℚ) (max_results : Nat) (h : stripStr query = []) :
    fuzzy_search rules query threshold max_results = [] ∧
    search_by_keywords rules [] threshold = [] := by
  constructor
  · unfold fuzzy_search
    rw [if_pos h]
  · unfold search_by_keywords
    rw [if_pos rfl]

theorem C9_witness :
    fuzzy_search [bikeRule] ("  ".toList) 0.6 10 = [] ∧
    search_by_keywords [bikeRule] [] 0.6 = [] :=
  C9_blank_inputs_give_empty [bikeRule] ("  ".toList) 0.6 10 (by decide)

/-!
## Keyword search machinery
-/

@[simp] theorem isSub_nil (t : List Char) : isSub [] t = true :=
  decide_eq_true List.nil_infix

@[simp] theorem lowerStr_nil : lowerStr [] = [] := rfl

/-- The per-rule mean score of `search_by_keywords`: the mean over the
keywords of the best cascade score of the two language fields. -/
def keywordAvg (kws : List (List Char)) (rule : Rule) : ℚ :=
  (kws.map (fun kw => keywordScore (lowerStr kw) (lowerStr rule.text_eng)
      (lowerStr rule.text_rus))).sum / (kws.length : ℚ)

theorem mem_keywordCandidates_iff (rules : List Rule) (kws : List (List Char)) (th : ℚ)
    (r : MatchResult) :
    r ∈ keywordCandidates rules kws th ↔ ∃ rule ∈ rules,
      (∀ kw ∈ kws, isSub (lowerStr kw) (lowerStr rule.text_eng) = true ∨
        isSub (lowerStr kw) (lowerStr rule.text_rus) = true) ∧
      th ≤ keywordAvg kws rule ∧
      r = { rule_number := rule.rule_number, text_eng := rule.text_eng,
            text_rus := rule.text_rus, similarity_score := keywordAvg kws rule,
            matched_language := .both, is_direct_rule := none } := by
  unfold keywordCandidates
  rw [List.mem_filterMap]
  constructor
  · rintro ⟨rule, hrule, heq⟩
    dsimp only at heq
    refine ⟨rule, hrule, ?_⟩
    split at heq
    · rename_i hall
      split at heq
      · rename_i hth
        refine ⟨?_, hth, (Option.some_inj.mp heq).symm⟩
        intro kw hkw
        have := List.all_eq_true.mp hall kw hkw
        exact Bool.or_eq_true_iff.mp this
      · exact absurd heq (by simp)
    · exact absurd heq (by simp)
  · rintro ⟨rule, hrule, hall, hth, heq⟩
    refine ⟨rule, hrule, ?_⟩
    have hguard : (kws.all fun kw => isSub (lowerStr kw) (lowerStr rule.text_eng) ||
        isSub (lowerStr kw) (lowerStr rule.text_rus)) = true :=
      List.all_eq_true.mpr (fun kw hkw => Bool.or_eq_true_iff.mpr (hall kw hkw))
    dsimp only
    rw [if_pos hguard, heq]
    exact if_pos hth

theorem mem_search_by_keywords (rules : List Rule) (kws : List (List Char)) (th : ℚ)
    (r : MatchResult) (hk : kws ≠ []) :
    r ∈ search_by_keywords rules kws th ↔ r ∈ keywordCandidates rules kws th := by
  unfold search_by_keywords
  rw [if_neg hk]
  exact List.mem_insertionSort scoreDescRel

theorem pairwise_of_all {α : Type} {r : α → α → Prop} (h : ∀ a b : α, r a b) :
    ∀ l : List α, l.Pairwise r := by
  intro l
  induction l with
  | nil => exact List.Pairwise.nil
  | cons a t ih => exact List.Pairwise.cons (fun b _ => h a b) ih

theorem filterMap_eq_map_of_some {α β : Type} (f : α → Option β) (g : α → β)
    (h : ∀ a : α, f a = some (g a)) : ∀ l : List α, l.filterMap f = l.map g := by
  intro l
  induction l with
  | nil => rfl
  | cons a t ih => simp [List.filterMap_cons, h a, ih]

/-- With the single empty keyword and a threshold at most `1`, every rule
qualifies with mean score `1`. -/
theorem keywordCandidates_empty_kw (rules : List Rule) (threshold : ℚ) (h : threshold ≤ 1) :
    keywordCandidates rules [[]] threshold =
      rules.map (fun rule =>
        { rule_number := rule.rule_number, text_eng := rule.text_eng,
          text_rus := rule.text_rus, similarity_score := 1,
          matched_language := .both, is_direct_rule := none }) := by
  unfold keywordCandidates
  apply filterMap_eq_map_of_some
  intro rule
  dsimp only
  rw [if_pos (by simp)]
  have h1 : keywordScore (lowerStr []) (lowerStr rule.text_eng) (lowerStr rule.text_rus) = 1 := by
    unfold keywordScore
    rw [lowerStr_nil, calculate_similarity_of_isSub _ _ (isSub_nil _),
      calculate_similarity_of_isSub _ _ (isSub_nil _), max_self]
  rw [show ((([] : List Char) :: []).map (fun kw => keywordScore (lowerStr kw)
      (lowerStr rule.text_eng) (lowerStr rule.text_rus))) = [1] from by
    rw [List.map_cons, List.map_nil, h1]]
  norm_num
  intro h'
  exact absurd h (not_le.mpr h')

theorem search_by_keywords_empty_kw (rules : List Rule) (threshold : ℚ) (h : threshold ≤ 1) :
    search_by_keywords rules [[]] threshold =
      rules.map (fun rule =>
        { rule_number := rule.rule_number, text_eng := rule.text_eng,
          text_rus := rule.text_rus, similarity_score := 1,
          matched_language := .both, is_direct_rule := none }) := by
  unfold search_by_keywords
  rw [if_neg (by simp), keywordCandidates_empty_kw rules threshold h]
  apply List.Sorted.insertionSort_eq
  exact List.pairwise_map.mpr (pairwise_of_all (fun a b => le_refl 1) rules)

/-- The single result produced on `[bikeRule]` by the empty keyword. -/
def emptyKwResult : MatchResult :=
  { rule_number := 1, text_eng := ("bike".toList), text_rus := ("bike".toList)
    similarity_score := 1, matched_language := .both, is_direct_rule := none }

/-- C10: the empty-string keyword passes the all-keywords-present check on
every text (the empty string is a substring of everything), scores `1.0`
through the exact-substring branch, and `search_by_keywords` on `[""]`
with threshold at most `1` returns every rule of the corpus in corpus
order with score `1.0`. -/
theorem C10_empty_keyword_selects_every_rule :
    (∀ text : List Char, isSub [] text = true) ∧
    (∀ text : List Char, calculate_similarity [] text = 1) ∧
    (∀ (rules : List Rule) (threshold : ℚ), threshold ≤ 1 →
      search_by_keywords rules [[]] threshold =
        rules.map (fun rule =>
          { rule_number := rule.rule_number, text_eng := rule.text_eng,
            text_rus := rule.text_rus, similarity_score := 1,
            matched_language := .both, is_direct_rule := none })) :=
  ⟨isSub_nil, fun t => calculate_similarity_of_isSub _ _ (isSub_nil t),
   search_by_keywords_empty_kw⟩

theorem C10_witness : search_by_keywords [bikeRule] [[]] 0.5 = [emptyKwResult] := by
  rw [C10_empty_keyword_selects_every_rule.2.2 [bikeRule] 0.5 (by norm_num)]
  rfl

/-- C8 (amended): every `fuzzy_search` result carries the
`is_direct_rule` key, but `search_by_keywords` results omit it (the
source builds those dictionaries without the key); the remaining fields
are always present, with `matched_language = Both` on the keyword path. -/
theorem C8_result_field_presence :
    (∀ (rules : List Rule) (query : List Char) (threshold : ℚ) (max_results : Nat)
      (r : MatchResult), r ∈ fuzzy_search rules query threshold max_results →
        r.is_direct_rule ≠ none) ∧
    (∀ (rules : List Rule) (keywords : List (List Char)) (threshold : ℚ)
      (r : MatchResult), r ∈ search_by_keywords rules keywords threshold →
        r.is_direct_rule = none ∧ r.matched_language = .both) := by
  constructor
  · intro rules query threshold max_results r hr
    rcases mem_fuzzy_search_cases rules query threshold max_results r hr with h | h
    · rw [h.2.1]
      simp
    · obtain ⟨rule, -, -, heq⟩ := mem_fuzzyCandidates_spec _ _ _ _ h
      rw [heq]
      simp
  · intro rules keywords threshold r hr
    by_cases hk : keywords = []
    · subst hk
      unfold search_by_keywords at hr
      rw [if_pos rfl] at hr
      exact absurd hr (List.not_mem_nil r)
    · have h1 := (mem_search_by_keywords rules keywords threshold r hk).mp hr
      obtain ⟨rule, -, -, -, heq⟩ := (mem_keywordCandidates_iff _ _ _ _).mp h1
      rw [heq]
      exact ⟨rfl, rfl⟩

theorem C8_witness :
    bikeResult.is_direct_rule ≠ none ∧ emptyKwResult.is_direct_rule = none :=
  ⟨C8_result_field_presence.1 [bikeRule] ("bike".toList) 0.5 1 bikeResult
      (by rw [fuzzy_search_bike_eval]; exact List.mem_singleton_self _),
   (C8_result_field_presence.2 [bikeRule] [[]] 0.5 emptyKwResult
      (by rw [search_by_keywords_empty_kw [bikeRule] 0.5 (by norm_num)]
          exact List.mem_singleton_self _)).1⟩

/-- C8 counterexample: contrary to the claim, a `search_by_keywords`
result does not carry the `is_direct_rule` key (modelled as `none`). -/
theorem C8_counterexample_keyword_result_omits_direct_key :
    ∃ r ∈ search_by_keywords [bikeRule] [[]] 0.6, r.is_direct_rule = none := by
  rw [search_by_keywords_empty_kw [bikeRule] 0.6 (by norm_num)]
  exact ⟨emptyKwResult, List.mem_singleton_self _, rfl⟩

/-- C6: a rule appears in `search_by_keywords` output only if every
keyword, lower-cased, is a substring of the lower-cased primary or
secondary text (each keyword checked independently); each result's score
is the mean over keywords of the best per-field cascade score and is at
or above the threshold; and every qualifying rule appears — no result
cap is applied. -/
theorem C6_keyword_search_characterization (rules : List Rule)
    (keywords : List (List Char)) (threshold : ℚ) :
    (∀ r ∈ search_by_keywords rules keywords threshold,
      ∀ kw ∈ keywords, isSub (lowerStr kw) (lowerStr r.text_eng) = true ∨
        isSub (lowerStr kw) (lowerStr r.text_rus) = true) ∧
    (∀ r ∈ search_by_keywords rules keywords threshold,
      ∃ rule ∈ rules, r.rule_number = rule.rule_number ∧
        r.similarity_score = keywordAvg keywords rule ∧
        threshold ≤ keywordAvg keywords rule) ∧
    (keywords ≠ [] → ∀ rule ∈ rules,
      (∀ kw ∈ keywords, isSub (lowerStr kw) (lowerStr rule.text_eng) = true ∨
        isSub (lowerStr kw) (lowerStr rule.text_rus) = true) →
      threshold ≤ keywordAvg keywords rule →
      ∃ r ∈ search_by_keywords rules keywords threshold,
        r.rule_number = rule.rule_number ∧
        r.similarity_score = keywordAvg keywords rule) := by
  refine ⟨?_, ?_, ?_⟩
  · intro r hr kw hkw
    by_cases hk : keywords = []
    · exact absurd hkw (by rw [hk]; exact List.not_mem_nil kw)
    · have h1 := (mem_search_by_keywords rules keywords threshold r hk).mp hr
      obtain ⟨rule, -, hall, -, heq⟩ := (mem_keywordCandidates_iff _ _ _ _).mp h1
      rw [heq]
      exact hall kw hkw
  · intro r hr
    by_cases hk : keywords = []
    · subst hk
      unfold search_by_keywords at hr
      rw [if_pos rfl] at hr
      exact absurd hr (List.not_mem_nil r)
    · have h1 := (mem_search_by_keywords rules keywords threshold r hk).mp hr
      obtain ⟨rule, hrule, -, hth, heq⟩ := (mem_keywordCandidates_iff _ _ _ _).mp h1
      exact ⟨rule, hrule, by rw [heq], by rw [heq], hth⟩
  · intro hk rule hrule hall hth
    refine ⟨{ rule_number := rule.rule_number
              text_eng := rule.text_eng
              text_rus := rule.text_rus
              similarity_score := keywordAvg keywords rule
              matched_language := .both
              is_direct_rule := none }, ?_, rfl, rfl⟩
    rw [mem_search_by_keywords rules keywords threshold _ hk,
      mem_keywordCandidates_iff]
    exact ⟨rule, hrule, hall, hth, rfl⟩

theorem C6_witness :
    ∃ r ∈ search_by_keywords [bikeRule] [("bike".toList)] 0.5,
      r.rule_number = bikeRule.rule_number ∧
      r.similarity_score = keywordAvg [("bike".toList)] bikeRule := by
  have havg : keywordAvg [("bike".toList)] bikeRule = 1 := by
    unfold keywordAvg keywordScore
    rw [List.map_cons, List.map_nil,
      calculate_similarity_of_isSub _ _ (by decide),
      calculate_similarity_of_isSub _ _ (by decide), max_self]
    norm_num
  exact (C6_keyword_search_characterization [bikeRule] [("bike".toList)] 0.5).2.2
    (by decide) bikeRule (List.mem_singleton_self _) (by decide)
    (by rw [havg]; norm_num)

/-- Two-word query used by C7. -/
def qW7 : List (List Char) := [("a".toList), ("b".toList)]

/-- Text with one word inserted between the query words. -/
def tClose7 : List (List Char) := [("a".toList), ("x".toList), ("b".toList)]

/-- Text with the query words scattered four words apart. -/
def tFar7 : List (List Char) :=
  [("a".toList), ("x".toList), ("y".toList), ("z".toList), ("w".toList), ("b".toList)]

theorem seq_close_eval : calculate_sequence_similarity qW7 tClose7 = 0.9 := by
  unfold calculate_sequence_similarity
  rw [if_neg (by decide)]
  rw [show tClose7.length + 1 - qW7.length = 2 from by decide]
  rw [show List.range 2 = [0, 1] from rfl]
  simp only [List.foldl_cons, List.foldl_nil]
  rw [show seqScanLoop tClose7 qW7 0 0 0 = (2, 0) from by decide]
  rw [show seqScanLoop tClose7 qW7 1 0 0 = (2, 0) from by decide]
  norm_num [gapScore, show qW7.length = 2 from rfl]

theorem seq_far_eval : calculate_sequence_similarity qW7 tFar7 = 0 := by
  unfold calculate_sequence_similarity
  rw [if_neg (by decide)]
  rw [show tFar7.length + 1 - qW7.length = 5 from by decide]
  rw [show List.range 5 = [0, 1, 2, 3, 4] from rfl]
  simp only [List.foldl_cons, List.foldl_nil]
  rw [show seqScanLoop tFar7 qW7 0 0 0 = (1, 0) from by decide]
  rw [show seqScanLoop tFar7 qW7 1 0 0 = (1, 0) from by decide]
  rw [show seqScanLoop tFar7 qW7 2 0 0 = (1, 0) from by decide]
  rw [show seqScanLoop tFar7 qW7 3 0 0 = (0, 0) from by decide]
  rw [show seqScanLoop tFar7 qW7 4 0 0 = (0, 0) from by decide]
  norm_num [show qW7.length = 2 from rfl]

/-- C7: the sequence-match score `0.9 - min(0.3, gaps * 0.1)` is
non-increasing in the gap count, with the penalty capped at `0.3`;
concretely, a two-word query whose words appear with one word inserted
between them scores `0.9` through the Sequence-Order branch (which the
cascade then returns, `0.9 > 0.8`), while the same words scattered four
words apart score `0.0` — strictly less. -/
theorem C7_gap_penalty_monotone_and_capped :
    (∀ g₁ g₂ : Nat, g₁ ≤ g₂ → gapScore g₂ ≤ gapScore g₁) ∧
    (∀ g : Nat, 0.9 - gapScore g ≤ 0.3) ∧
    calculate_sequence_similarity qW7 tClose7 = 0.9 ∧
    calculate_sequence_similarity qW7 tFar7 = 0 ∧
    calculate_similarity ("a b".toList) ("a x b".toList) = 0.9 ∧
    calculate_sequence_similarity qW7 tFar7 < calculate_sequence_similarity qW7 tClose7 := by
  refine ⟨?_, ?_, seq_close_eval, seq_far_eval, ?_, ?_⟩
  · intro g₁ g₂ h
    unfold gapScore
    have h1 : ((g₁ : ℚ)) * 0.1 ≤ (g₂ : ℚ) * 0.1 :=
      mul_le_mul_of_nonneg_right (by exact_mod_cast h) (by norm_num)
    have h2 := min_le_min (le_refl (0.3 : ℚ)) h1
    linarith
  · intro g
    unfold gapScore
    have := min_le_left (0.3 : ℚ) ((g : ℚ) * 0.1)
    linarith
  · have hq : splitWords ("a b".toList) = qW7 := by decide
    have ht : splitWords ("a x b".toList) = tClose7 := by decide
    unfold calculate_similarity
    rw [if_neg (by decide), hq, ht]
    dsimp only
    rw [if_pos ⟨by decide, by rw [seq_close_eval]; norm_num⟩]
    exact seq_close_eval
  · rw [seq_close_eval, seq_far_eval]
    norm_num

theorem C7_witness : gapScore 3 ≤ gapScore 1 :=
  C7_gap_penalty_monotone_and_capped.1 1 3 (by decide)

/-- A stable sort keeps the elements of any one score level exactly as
they were: filtering the sorted list at a score equals filtering the
input. -/
theorem sortByScoreDesc_filter_score (l : List MatchResult) (s : ℚ) :
    (sortByScoreDesc l).filter (fun r => decide (r.similarity_score = s)) =
      l.filter (fun r => decide (r.similarity_score = s)) := by
  have hpw : (l.filter (fun r => decide (r.similarity_score = s))).Pairwise scoreDescRel := by
    apply List.pairwise_of_forall_mem_list
    intro a ha b hb
    have ha' := of_decide_eq_true (List.mem_filter.mp ha).2
    have hb' := of_decide_eq_true (List.mem_filter.mp hb).2
    unfold scoreDescRel
    rw [ha', hb']
  have h1 : List.Sublist (l.filter (fun r => decide (r.similarity_score = s))) (sortByScoreDesc l) :=
    List.sublist_insertionSort hpw (List.filter_sublist l)
  have h2 : List.Sublist (l.filter (fun r => decide (r.similarity_score = s)))
      ((sortByScoreDesc l).filter (fun r => decide (r.similarity_score = s))) := by
    have h3 := h1.filter (fun r => decide (r.similarity_score = s))
    rwa [List.filter_eq_self.mpr (fun a ha => (List.mem_filter.mp ha).2)] at h3
  have hperm : ((sortByScoreDesc l).filter (fun r => decide (r.similarity_score = s))).Perm
      (l.filter (fun r => decide (r.similarity_score = s))) :=
    (List.perm_insertionSort scoreDescRel l).filter _
  exact (h2.eq_of_length hperm.length_eq.symm).symm

/-- C5: for a non-blank, non-numeric query the result list of
`fuzzy_search` is sorted non-increasing by score; each score level keeps
the corpus order of the candidate list (stability); and the list is the
`max_results`-prefix of the full sorted candidate list, hence has at most
`max_results` entries. -/
theorem C5_results_sorted_stable_truncated (rules : List Rule) (query : List Char)
    (threshold : ℚ) (max_results : Nat)
    (h1 : stripStr query ≠ []) (h2 : isDigitStr (stripStr query) = false) :
    (fuzzy_search rules query threshold max_results).Pairwise
      (fun a b => b.similarity_score ≤ a.similarity_score) ∧
    (∀ s : ℚ, List.Sublist
      ((fuzzy_search rules query threshold max_results).filter
        (fun r => decide (r.similarity_score = s)))
      ((fuzzyCandidates rules (stripStr (lowerStr query)) threshold).filter
        (fun r => decide (r.similarity_score = s)))) ∧
    (fuzzy_search rules query threshold max_results).length ≤ max_results ∧
    fuzzy_search rules query threshold max_results <+:
      sortByScoreDesc (fuzzyCandidates rules (stripStr (lowerStr query)) threshold) := by
  have hfz : fuzzy_search rules query threshold max_results =
      (sortByScoreDesc (fuzzyCandidates rules (stripStr (lowerStr query)) threshold)).take
        max_results := by
    unfold fuzzy_search
    rw [if_neg h1, if_neg (by simp [h2])]
  refine ⟨?_, ?_, ?_, ?_⟩
  · rw [hfz]
    exact List.Pairwise.sublist (List.take_sublist _ _)
      (List.sorted_insertionSort scoreDescRel _)
  · intro s
    rw [hfz]
    rw [show (fuzzyCandidates rules (stripStr (lowerStr query)) threshold).filter
        (fun r => decide (r.similarity_score = s)) =
      (sortByScoreDesc (fuzzyCandidates rules (stripStr (lowerStr query)) threshold)).filter
        (fun r => decide (r.similarity_score = s)) from
      (sortByScoreDesc_filter_score _ s).symm]
    exact (List.take_sublist _ _).filter _
  · rw [hfz]
    exact List.length_take_le _ _
  · rw [hfz]
    exact List.take_prefix _ _


theorem C5_witness :
    (fuzzy_search [bikeRule] ("bike".toList) 0.5 1).Pairwise
      (fun a b => b.similarity_score ≤ a.similarity_score) ∧
    (∀ s : ℚ, List.Sublist
      ((fuzzy_search [bikeRule] ("bike".toList) 0.5 1).filter
        (fun r => decide (r.similarity_score = s)))
      ((fuzzyCandidates [bikeRule] (stripStr (lowerStr ("bike".toList))) 0.5).filter
        (fun r => decide (r.similarity_score = s)))) ∧
    (fuzzy_search [bikeRule] ("bike".toList) 0.5 1).length ≤ 1 ∧
    fuzzy_search [bikeRule] ("bike".toList) 0.5 1 <+:
      sortByScoreDesc (fuzzyCandidates [bikeRule] (stripStr (lowerStr ("bike".toList))) 0.5) :=
  C5_results_sorted_stable_truncated [bikeRule] ("bike".toList) 0.5 1
    (by decide) (by decide)

/-- The per-start matching pass as the spec states it (§4.3): match the
query words in order; for each, search the window `[last_pos-2,
last_pos+3)` clamped to the text for an exact word match; on success
advance `last_pos` past the match and accumulate
`max(0, matched_index - last_pos - 1)` gaps; on failure abort.  Returns
the total gap count exactly when every query word matched. -/
def specSeqMatchFrom (text_words : List (List Char)) :
    List (List Char) → Nat → Nat → Option Nat
  | [], _, gaps => some gaps
  | qw :: rest, last_pos, gaps =>
    match findInWindow text_words qw (last_pos - 2) (min text_words.length (last_pos + 3)) with
    | some k => specSeqMatchFrom text_words rest (k + 1) (gaps + (k - (last_pos + 1)))
    | none => none

/-- The Sequence-Order Matcher as the spec states it (C4/§4.3): `0.0`
for fewer than two query words; otherwise the best value of
`0.9 - min(0.3, gaps × 0.1)` over the candidate start positions (the
`len(text_words) - len(query_words) + 1` positions from which the query
can fit), or `0.0` when no start position matches all query words. -/
def specSequenceScore (query_words text_words : List (List Char)) : ℚ :=
  if query_words.length < 2 then 0
  else
    ((List.range (text_words.length + 1 - query_words.length)).map (fun i =>
      match specSeqMatchFrom text_words query_words i 0 with
      | some gaps => 0.9 - min 0.3 ((gaps : ℚ) * 0.1)
      | none => 0)).foldl max 0

theorem seqScanLoop_spec (tw : List (List Char)) :
    ∀ (qws : List (List Char)) (lp m g : Nat),
      (∀ G, specSeqMatchFrom tw qws lp g = some G →
        seqScanLoop tw qws lp m g = (m + qws.length, G)) ∧
      (specSeqMatchFrom tw qws lp g = none →
        (seqScanLoop tw qws lp m g).1 < m + qws.length) := by
  intro qws
  induction qws with
  | nil =>
    intro lp m g
    constructor
    · intro G hG
      have hg : g = G := Option.some_inj.mp hG
      simp [seqScanLoop, hg]
    · intro hG
      exact absurd hG (by simp [specSeqMatchFrom])
  | cons qw rest ih =>
    intro lp m g
    constructor
    · intro G hG
      unfold specSeqMatchFrom at hG
      unfold seqScanLoop
      cases hfw : findInWindow tw qw (lp - 2) (min tw.length (lp + 3)) with
      | none =>
        rw [hfw] at hG
        dsimp only at hG
        exact absurd hG (by simp)
      | some k =>
        rw [hfw] at hG
        dsimp only at hG ⊢
        have h1 := (ih (k + 1) (m + 1) (g + (k - (lp + 1)))).1 G hG
        rw [h1, List.length_cons]
        rw [show m + (rest.length + 1) = (m + 1) + rest.length from by omega]
    · intro hG
      unfold specSeqMatchFrom at hG
      unfold seqScanLoop
      cases hfw : findInWindow tw qw (lp - 2) (min tw.length (lp + 3)) with
      | none =>
        simp only [List.length_cons]
        omega
      | some k =>
        rw [hfw] at hG
        dsimp only at hG ⊢
        have h1 := (ih (k + 1) (m + 1) (g + (k - (lp + 1)))).2 hG
        simp only [List.length_cons]
        omega

theorem seq_fold_eq (tw qw : List (List Char)) :
    ∀ (l : List Nat) (best : ℚ), 0 ≤ best →
      l.foldl (fun best i =>
        let mg := seqScanLoop tw qw i 0 0
        if mg.1 = qw.length then max best (gapScore mg.2) else best) best =
      (l.map (fun i =>
        match specSeqMatchFrom tw qw i 0 with
        | some gaps => 0.9 - min 0.3 ((gaps : ℚ) * 0.1)
        | none => 0)).foldl max best := by
  intro l
  induction l with
  | nil => intro best _; rfl
  | cons i rest ih =>
    intro best hb
    simp only [List.foldl_cons, List.map_cons]
    cases hspec : specSeqMatchFrom tw qw i 0 with
    | some G =>
      have h1 := (seqScanLoop_spec tw qw i 0 0).1 G hspec
      dsimp only
      rw [h1]
      rw [if_pos (by omega)]
      have h2 : gapScore ((0 : Nat) + qw.length, G).2 = 0.9 - min 0.3 ((G : ℚ) * 0.1) := rfl
      rw [h2]
      exact ih _ (le_trans hb (le_max_left _ _))
    | none =>
      have h1 := (seqScanLoop_spec tw qw i 0 0).2 hspec
      dsimp only
      rw [if_neg (by omega)]
      rw [max_eq_left hb]
      exact ih best hb

/-- C4: the implementation's sequence matcher computes exactly the spec's
Sequence-Order score. -/
theorem C4_sequence_matcher_matches_spec (query_words text_words : List (List Char)) :
    calculate_sequence_similarity query_words text_words =
      specSequenceScore query_words text_words := by
  unfold calculate_sequence_similarity specSequenceScore
  split
  · rfl
  · exact seq_fold_eq text_words query_words _ 0 le_rfl

end RulesSearch
